import Mathlib

/-!
Shallow embedding of the `stats` library (`src/lib.rs`): four statistics
functions over a slice of doubles — `mean`, `stddev`, `median` and `l2` —
each returning an optional double.

Modelling conventions:
* A sample (a slice of doubles) is a `List ℚ`: the properties under study
  assume samples free of NaN, and every finite double is a rational number.
  Arithmetic on finite doubles is modelled exactly.
* Operations that can produce a non-finite double from finite operands —
  division with a zero divisor, square root — land in the type `F64`, which
  tags a result as finite (with its exact real value), infinite or NaN,
  following the IEEE-754 special-value rules.
* Rust `for` loops that accumulate left to right become `List.foldl`; the
  early-returning index loop in `median` becomes a fuel recursion with one
  unit of fuel per loop iteration.
* `sort_by` with the two-sided float comparison is, on NaN-free input, the
  ascending sort; it is modelled by `List.insertionSort (· ≤ ·)`.
-/

namespace Stats

/-- Result of a double-precision computation: a finite value carrying its
exact real magnitude, one of the two infinities, or NaN. -/
inductive F64 where
  | finite (x : ℝ)
  | inf
  | neginf
  | nan

/-- Predicate selecting the finite results. -/
def F64.IsFinite : F64 → Prop
  | F64.finite _ => True
  | F64.inf => False
  | F64.neginf => False
  | F64.nan => False

/-- IEEE-754 division restricted to finite operands: a zero divisor produces
NaN (for a zero dividend) or a signed infinity; otherwise the exact quotient. -/
noncomputable def fdiv (x y : ℚ) : F64 :=
  if y = 0 then
    if x = 0 then F64.nan
    else if 0 < x then F64.inf
    else F64.neginf
  else F64.finite ((x / y : ℚ) : ℝ)

/-- IEEE-754 square root on the finite-or-special results: NaN on negative
finite input, on negative infinity and on NaN, the exact square root on
nonnegative finite input. -/
noncomputable def fsqrt : F64 → F64
  | F64.finite x => if x < 0 then F64.nan else F64.finite (Real.sqrt x)
  | F64.inf => F64.inf
  | F64.neginf => F64.nan
  | F64.nan => F64.nan

/-- Embedding of `mean` (src/lib.rs lines 29-41): 0.0 for the empty slice,
otherwise the left-to-right sum of the elements divided by the length. -/
def mean (nums : List ℚ) : Option ℚ :=
  if nums.isEmpty then some 0
  else some ((nums.foldl (· + ·) 0) / (nums.length : ℚ))

/-- The two accumulation loops of `stddev`: push the squared deviation of
every element from `m` into a vector, then sum it left to right. -/
def sumSqDev (nums : List ℚ) (m : ℚ) : ℚ :=
  (nums.map (fun x => (x - m) * (x - m))).foldl (· + ·) 0

/-- Embedding of `stddev` (src/lib.rs lines 57-86): `None` on the empty slice;
otherwise the square root of the sum of squared deviations from the mean
divided by `len - 1`, keeping the truncating `usize` subtraction and the
unguarded floating-point division of the source. -/
noncomputable def stddev (nums : List ℚ) : Option F64 :=
  if nums.isEmpty then none
  else
    let m : ℚ :=
      match mean nums with
      | some x => x
      | none => 0
    some (fsqrt (fdiv (sumSqDev nums m) ((nums.length - 1 : ℕ) : ℚ)))

/-- The early-returning index loop of the odd branch of `median`
(src/lib.rs lines 122-127): starting at index `i` with the given iteration
budget, return the absolute value of the element at the first index `i`
satisfying `i = len - (i + 1)`, and `None` if the loop runs out. -/
def medianLoop (nums : List ℚ) : ℕ → ℕ → Option ℚ
  | 0, _ => none
  | fuel + 1, i =>
    if i = nums.length - (i + 1) then (nums[i]?).map (fun q => |q|)
    else medianLoop nums fuel (i + 1)

/-- Body of `median` after the sorted copy has been made (the source shadows
`nums` with the sorted copy, src/lib.rs lines 102-130): an empty slice gives
`None`; an even length picks between `nums[j]` and `nums[j - 1]` for
`j = len / 2`; an odd length runs the index loop over `0..len`. -/
def medianSorted (nums : List ℚ) : Option ℚ :=
  if nums.isEmpty then none
  else if nums.length % 2 = 0 then
    if nums.length / 2 < nums.length - 1 - nums.length / 2 then
      nums[nums.length / 2]?
    else nums[nums.length / 2 - 1]?
  else medianLoop nums nums.length 0

/-- Embedding of `median` (src/lib.rs lines 102-130): sort an owned copy of
the slice ascending, then run the selection logic on the sorted copy. -/
def median (nums : List ℚ) : Option ℚ :=
  medianSorted (List.insertionSort (· ≤ ·) nums)

/-- State-passing embedding of a call to `median` on a borrowed slice: the
callee receives the caller's slice, and the pair returned is the result
together with the slice as the caller sees it after the call. The source
clones the slice with `to_owned` and sorts only the clone, so the slice the
caller holds is returned untouched. -/
def medianCall (sample : List ℚ) : Option ℚ × List ℚ :=
  let copy : List ℚ := List.insertionSort (· ≤ ·) sample
  (medianSorted copy, sample)

/-- The two accumulation loops of `l2` (src/lib.rs lines 154-165): push every
square into a vector, then sum it left to right. -/
def sumSquares (nums : List ℚ) : ℚ :=
  (nums.map (fun x => x * x)).foldl (· + ·) 0

/-- Embedding of `l2` (src/lib.rs lines 154-165): the square root of the sum
of squares; the source has no empty-slice guard since the empty sum is 0.0. -/
noncomputable def l2 (nums : List ℚ) : Option F64 :=
  some (fsqrt (F64.finite ((sumSquares nums : ℚ) : ℝ)))

/-- Folding addition from a nonnegative seed over nonnegative elements stays
nonnegative. -/
theorem foldl_add_nonneg (l : List ℚ) (a : ℚ) (ha : 0 ≤ a)
    (hl : ∀ x ∈ l, 0 ≤ x) : 0 ≤ l.foldl (· + ·) a := by
  induction l generalizing a with
  | nil => exact ha
  | cons b t ih =>
    exact ih _ (add_nonneg ha (hl b (List.mem_cons_self b t)))
      (fun x hx => hl x (List.mem_cons_of_mem b hx))

/-- The sum of squared deviations is nonnegative. -/
theorem sumSqDev_nonneg (nums : List ℚ) (m : ℚ) : 0 ≤ sumSqDev nums m := by
  refine foldl_add_nonneg _ _ le_rfl ?_
  intro x hx
  obtain ⟨y, _, rfl⟩ := List.mem_map.mp hx
  exact mul_self_nonneg _

/-- The sum of squares is nonnegative. -/
theorem sumSquares_nonneg (nums : List ℚ) : 0 ≤ sumSquares nums := by
  refine foldl_add_nonneg _ _ le_rfl ?_
  intro x hx
  obtain ⟨y, _, rfl⟩ := List.mem_map.mp hx
  exact mul_self_nonneg _

/-- Sorting a list yields the unique ascending reordering: any sorted
permutation of the input is the sort of the input. -/
theorem insertionSort_eq_of_sorted (nums l : List ℚ) (hp : nums.Perm l)
    (hs : l.Sorted (· ≤ ·)) : List.insertionSort (· ≤ ·) nums = l :=
  List.eq_of_perm_of_sorted ((List.perm_insertionSort _ nums).trans hp)
    (List.sorted_insertionSort _ nums) hs

/-- On a list of odd length `2 * k + 1`, the index loop started anywhere at or
below `k` with enough fuel returns the absolute value of the element at `k`. -/
theorem medianLoop_eq (nums : List ℚ) (k : ℕ) (hlen : nums.length = 2 * k + 1) :
    ∀ fuel i, i ≤ k → k < i + fuel →
      medianLoop nums fuel i = (nums[k]?).map (fun q => |q|) := by
  intro fuel
  induction fuel with
  | zero => intro i hik hk; omega
  | succ fuel ih =>
    intro i hik hk
    by_cases hcase : i = k
    · subst hcase
      have hcond : i = nums.length - (i + 1) := by omega
      rw [medianLoop, if_pos hcond]
    · have hcond : ¬ i = nums.length - (i + 1) := by omega
      rw [medianLoop, if_neg hcond]
      exact ih (i + 1) (by omega) (by omega)

/-- On a nonempty list of even length, the selection body returns the element
at index `len / 2 - 1`. -/
theorem medianSorted_even (nums : List ℚ) (hne : nums ≠ [])
    (he : nums.length % 2 = 0) :
    medianSorted nums = nums[nums.length / 2 - 1]? := by
  have hpos : 0 < nums.length := List.length_pos.mpr hne
  have hno : ¬ nums.length / 2 < nums.length - 1 - nums.length / 2 := by omega
  have hE : ¬ nums.isEmpty = true := by
    simp only [List.isEmpty_iff]
    exact hne
  rw [medianSorted, if_neg hE, if_pos he, if_neg hno]

/-- On a list of odd length, the selection body returns the absolute value of
the middle element, the one at index `(len - 1) / 2`. -/
theorem medianSorted_odd (nums : List ℚ) (ho : nums.length % 2 = 1) :
    medianSorted nums = (nums[(nums.length - 1) / 2]?).map (fun q => |q|) := by
  obtain ⟨k, hk⟩ : ∃ k, nums.length = 2 * k + 1 := ⟨nums.length / 2, by omega⟩
  have hE : ¬ nums.isEmpty = true := by
    simp only [List.isEmpty_iff]
    intro hnil
    rw [hnil] at hk
    simp at hk
  have hodd : ¬ nums.length % 2 = 0 := by omega
  have hidx : (nums.length - 1) / 2 = k := by omega
  rw [medianSorted, if_neg hE, if_neg hodd,
    medianLoop_eq nums k hk nums.length 0 (by omega) (by omega), hidx]

/-- C6: both `stddev` and `median` return the absent marker on the empty
sample, not a numeric sentinel. -/
theorem stddev_median_empty_absent :
    stddev ([] : List ℚ) = none ∧ median ([] : List ℚ) = none :=
  ⟨rfl, rfl⟩

/-- C10: a call to `median` leaves the caller's sample unchanged: the slice
the caller holds after the call is the input itself, in the same order, while
the result is computed from a sorted copy. -/
theorem median_frame (sample : List ℚ) :
    (medianCall sample).2 = sample ∧ (medianCall sample).1 = median sample :=
  ⟨rfl, rfl⟩

/-- C1: evaluation at the failing input `[-1.0]`: the sorted copy of the
sample is `[-1.0]` and its middle element is `-1.0`, yet `median` returns
`1.0`, the absolute value, instead of the exact middle element. -/
theorem median_odd_middle_bug :
    median [(-1 : ℚ)] = some 1 ∧ median [(-1 : ℚ)] ≠ some (-1) := by
  decide

/-- C2: on a sample of odd length, `median` returns the absolute value of the
middle element (zero-based index `(n - 1) / 2`) of the ascending-sorted copy;
in particular a negative middle value comes back with its sign flipped. -/
theorem median_odd_abs_middle (nums l : List ℚ) (hp : nums.Perm l)
    (hs : l.Sorted (· ≤ ·)) (ho : nums.length % 2 = 1) :
    median nums = (l[(nums.length - 1) / 2]?).map (fun q => |q|) := by
  have hsort : List.insertionSort (· ≤ ·) nums = l :=
    insertionSort_eq_of_sorted nums l hp hs
  have hlen : l.length = nums.length := hp.length_eq.symm
  rw [median, hsort, medianSorted_odd l (by omega), hlen]

/-- C2 witness at the concrete sample `[-2.0]`. -/
theorem median_odd_abs_middle_witness :
    ([(-2 : ℚ)]).Perm [(-2 : ℚ)] ∧ ([(-2 : ℚ)]).Sorted (· ≤ ·) ∧
      ([(-2 : ℚ)]).length % 2 = 1 ∧
      median [(-2 : ℚ)] =
        (([(-2 : ℚ)])[(([(-2 : ℚ)]).length - 1) / 2]?).map (fun q => |q|) :=
  ⟨by decide, by decide, by decide,
    median_odd_abs_middle [(-2 : ℚ)] [(-2 : ℚ)] (by decide) (by decide) (by decide)⟩

/-- C3: on a nonempty sample of even length, `median` returns the element at
zero-based index `n / 2 - 1` of the ascending-sorted copy, which is the lower
of the two central elements, never their average. -/
theorem median_even_lower_middle (nums l : List ℚ) (hp : nums.Perm l)
    (hs : l.Sorted (· ≤ ·)) (hne : nums ≠ []) (he : nums.length % 2 = 0) :
    median nums = l[nums.length / 2 - 1]? ∧
      ∀ a b, l[nums.length / 2 - 1]? = some a →
        l[nums.length / 2]? = some b → a ≤ b := by
  have hsort : List.insertionSort (· ≤ ·) nums = l :=
    insertionSort_eq_of_sorted nums l hp hs
  have hlen : l.length = nums.length := hp.length_eq.symm
  have hlne : l ≠ [] := by
    intro hnil
    rw [hnil] at hlen
    exact hne (List.length_eq_zero.mp hlen.symm)
  constructor
  · rw [median, hsort, medianSorted_even l hlne (by omega), hlen]
  · intro a b ha hb
    have hpos : 0 < nums.length := List.length_pos.mpr hne
    obtain ⟨hia, hga⟩ := List.getElem?_eq_some.mp ha
    obtain ⟨hib, hgb⟩ := List.getElem?_eq_some.mp hb
    rw [← hga, ← hgb]
    exact hs.rel_get_of_lt (by simp; omega)

/-- C3 witness at the concrete sample `[3.0, 1.0]` with sorted copy
`[1.0, 3.0]`. -/
theorem median_even_lower_middle_witness :
    ([(3 : ℚ), 1]).Perm [(1 : ℚ), 3] ∧ ([(1 : ℚ), 3]).Sorted (· ≤ ·) ∧
      [(3 : ℚ), 1] ≠ ([] : List ℚ) ∧ ([(3 : ℚ), 1]).length % 2 = 0 ∧
      (median [(3 : ℚ), 1] = ([(1 : ℚ), 3])[([(3 : ℚ), 1]).length / 2 - 1]? ∧
        ∀ a b, ([(1 : ℚ), 3])[([(3 : ℚ), 1]).length / 2 - 1]? = some a →
          ([(1 : ℚ), 3])[([(3 : ℚ), 1]).length / 2]? = some b → a ≤ b) :=
  ⟨by decide, by decide, by decide, by decide,
    median_even_lower_middle [(3 : ℚ), 1] [(1 : ℚ), 3]
      (by decide) (by decide) (by decide) (by decide)⟩

/-- C7: `median` is invariant under any permutation of its input. -/
theorem median_perm_invariant (s t : List ℚ) (hp : s.Perm t) :
    median t = median s := by
  have h : List.insertionSort (· ≤ ·) s = List.insertionSort (· ≤ ·) t :=
    List.eq_of_perm_of_sorted
      (((List.perm_insertionSort _ s).trans hp).trans
        (List.perm_insertionSort _ t).symm)
      (List.sorted_insertionSort _ s) (List.sorted_insertionSort _ t)
  rw [median, median, h]

/-- C7 witness: the two orderings of `{1.0, 2.0}` share their median. -/
theorem median_perm_invariant_witness :
    ([(1 : ℚ), 2]).Perm [(2 : ℚ), 1] ∧
      median [(2 : ℚ), 1] = median [(1 : ℚ), 2] :=
  ⟨by decide, median_perm_invariant [(1 : ℚ), 2] [(2 : ℚ), 1] (by decide)⟩

/-- C8: `mean` is always present, is `0.0` on the empty sample, and on a
nonempty sample is the left-to-right sum of the elements divided by the
element count. -/
theorem mean_total_spec :
    (∀ nums : List ℚ, ∃ v, mean nums = some v) ∧
      mean ([] : List ℚ) = some 0 ∧
      ∀ nums : List ℚ, nums ≠ [] →
        mean nums = some ((nums.foldl (· + ·) 0) / (nums.length : ℚ)) := by
  refine ⟨?_, rfl, ?_⟩
  · intro nums
    by_cases h : nums.isEmpty
    · exact ⟨0, by simp [mean, h]⟩
    · exact ⟨(nums.foldl (· + ·) 0) / (nums.length : ℚ), by rw [mean, if_neg h]⟩
  · intro nums hne
    have hE : ¬ nums.isEmpty = true := by
      simp only [List.isEmpty_iff]
      exact hne
    rw [mean, if_neg hE]

/-- C8 witness: evaluation on the empty sample and on `[2.0, 4.0]`. -/
theorem mean_total_spec_witness :
    mean ([] : List ℚ) = some 0 ∧ [(2 : ℚ), 4] ≠ ([] : List ℚ) ∧
      mean [(2 : ℚ), 4] =
        some (([(2 : ℚ), 4].foldl (· + ·) 0) / (([(2 : ℚ), 4]).length : ℚ)) :=
  ⟨mean_total_spec.2.1, by decide, mean_total_spec.2.2 [(2 : ℚ), 4] (by decide)⟩

/-- C9: `l2` is always present with a nonnegative finite value, is `0.0` on
the empty sample, and equals the square root of the left-to-right sum of the
squares of the elements. -/
theorem l2_total_spec :
    (∀ nums : List ℚ, ∃ x : ℝ, l2 nums = some (F64.finite x) ∧ 0 ≤ x) ∧
      l2 ([] : List ℚ) = some (F64.finite 0) ∧
      ∀ nums : List ℚ,
        l2 nums = some (F64.finite (Real.sqrt ((sumSquares nums : ℚ) : ℝ))) := by
  have key : ∀ nums : List ℚ,
      l2 nums = some (F64.finite (Real.sqrt ((sumSquares nums : ℚ) : ℝ))) := by
    intro nums
    have hnn : ¬ ((sumSquares nums : ℚ) : ℝ) < 0 := by
      rw [not_lt]
      exact_mod_cast sumSquares_nonneg nums
    rw [l2, fsqrt, if_neg hnn]
  refine ⟨?_, ?_, key⟩
  · intro nums
    exact ⟨_, key nums, Real.sqrt_nonneg _⟩
  · rw [key []]
    norm_num [sumSquares]

/-- C4: for samples of size at least 2, `stddev` returns the present finite
value: the square root of the sum of squared deviations from the mean,
accumulated left to right, divided by `n - 1` — the Bessel-corrected sample
standard deviation, whose divisor is `n - 1` rather than `n`. -/
theorem stddev_bessel (nums : List ℚ) (h : 2 ≤ nums.length) :
    ∃ m : ℚ, mean nums = some m ∧
      stddev nums = some (F64.finite (Real.sqrt
        ((sumSqDev nums m / ((nums.length : ℚ) - 1) : ℚ) : ℝ))) := by
  have hne : nums ≠ [] := by
    intro hnil
    rw [hnil] at h
    simp at h
  have hE : ¬ nums.isEmpty = true := by
    simp only [List.isEmpty_iff]
    exact hne
  have hmean : mean nums = some ((nums.foldl (· + ·) 0) / (nums.length : ℚ)) := by
    rw [mean, if_neg hE]
  refine ⟨(nums.foldl (· + ·) 0) / (nums.length : ℚ), hmean, ?_⟩
  have hcast : ((nums.length - 1 : ℕ) : ℚ) = (nums.length : ℚ) - 1 := by
    have h1 : 1 ≤ nums.length := by omega
    push_cast [Nat.cast_sub h1]
    ring
  have hDpos : (0 : ℚ) < (nums.length : ℚ) - 1 := by
    have h2 : (2 : ℚ) ≤ (nums.length : ℚ) := by exact_mod_cast h
    linarith
  have hDne : ¬ ((nums.length : ℚ) - 1 = 0) := ne_of_gt hDpos
  have hnn : ¬ ((sumSqDev nums ((nums.foldl (· + ·) 0) / (nums.length : ℚ)) /
      ((nums.length : ℚ) - 1) : ℚ) : ℝ) < 0 := by
    rw [not_lt]
    exact_mod_cast div_nonneg (sumSqDev_nonneg _ _) (le_of_lt hDpos)
  unfold stddev
  rw [if_neg hE, hmean]
  simp only [hcast]
  unfold fdiv
  rw [if_neg hDne]
  simp only [fsqrt]
  rw [if_neg hnn]

/-- C4 witness at the concrete sample `[1.0, 1.0]`. -/
theorem stddev_bessel_witness :
    2 ≤ ([(1 : ℚ), 1]).length ∧
      ∃ m : ℚ, mean [(1 : ℚ), 1] = some m ∧
        stddev [(1 : ℚ), 1] = some (F64.finite (Real.sqrt
          ((sumSqDev [(1 : ℚ), 1] m / ((([(1 : ℚ), 1]).length : ℚ) - 1) : ℚ) : ℝ))) :=
  ⟨by decide, stddev_bessel [(1 : ℚ), 1] (by decide)⟩

/-- C5: on any one-element sample, `stddev` returns a present non-finite
value — the unguarded division by `n - 1 = 0` yields NaN — rather than the
absent marker. -/
theorem stddev_singleton_nonfinite (x : ℚ) :
    ∃ v : F64, stddev [x] = some v ∧ ¬ v.IsFinite := by
  refine ⟨F64.nan, ?_, by simp [F64.IsFinite]⟩
  have hE : ¬ ([x] : List ℚ).isEmpty = true := by simp
  have hmean : mean [x] = some x := by simp [mean]
  have hdev : sumSqDev [x] x = 0 := by simp [sumSqDev]
  unfold stddev
  rw [if_neg hE, hmean]
  simp only [hdev, List.length_cons, List.length_nil]
  norm_num [fdiv, fsqrt]

/-- C5 witness at the concrete sample `[7.0]`. -/
theorem stddev_singleton_nonfinite_witness :
    ∃ v : F64, stddev [(7 : ℚ)] = some v ∧ ¬ v.IsFinite :=
  stddev_singleton_nonfinite 7

/-- C9 witness at the concrete sample `[3.0, 4.0]`. -/
theorem l2_total_spec_witness :
    ∃ x : ℝ, l2 [(3 : ℚ), 4] = some (F64.finite x) ∧ 0 ≤ x :=
  l2_total_spec.1 [(3 : ℚ), 4]

/-- C10 witness at the concrete sample `[2.0, 1.0]`. -/
theorem median_frame_witness :
    (medianCall [(2 : ℚ), 1]).2 = [(2 : ℚ), 1] ∧
      (medianCall [(2 : ℚ), 1]).1 = median [(2 : ℚ), 1] :=
  median_frame [(2 : ℚ), 1]

end Stats
